import Mathlib

/-!
# Verification of the envconfig binding and usage engine

A shallow embedding of the envconfig library: the key resolver, the
scalar/composite type coercer, the capability dispatcher, the binder with
error aggregation, the metadata gatherer, and the usage-rendering helpers
from `usage.go` (`implementsInterface`, `toTypeDescription`,
`usage_required`).

The repository sources at hand contain `usage.go` and one test file; the
binder and coercion engine itself is modelled from the specification, as
marked on each such definition.
-/

namespace Envconfig

/-! ## Decimal digits: rendering and parsing -/

/-- The character for a single decimal digit value. -/
def digitChar (n : Nat) : Char := Char.ofNat (48 + n)

/-- Numeric value of a decimal digit character, if it is one. -/
def digitVal (c : Char) : Option Nat :=
  if 48 ≤ c.toNat ∧ c.toNat ≤ 57 then some (c.toNat - 48) else none

/-- Fold decimal digit characters onto an accumulator; fails on a non-digit. -/
def parseDigitsFrom (acc : Nat) : List Char → Option Nat
  | [] => some acc
  | c :: cs =>
    match digitVal c with
    | some d => parseDigitsFrom (acc * 10 + d) cs
    | none => none

/-- Parse a nonempty run of decimal digits as a natural number. -/
def parseNatDigits : List Char → Option Nat
  | [] => none
  | c :: cs => parseDigitsFrom 0 (c :: cs)

/-- Most-significant-first decimal digit characters of a natural number. -/
def natDigitsList (n : Nat) : List Char :=
  if _h : n < 10 then [digitChar n]
  else natDigitsList (n / 10) ++ [digitChar (n % 10)]
termination_by n
decreasing_by exact Nat.div_lt_self (by omega) (by omega)

/-- Canonical decimal rendering of a natural number. -/
def renderNat (n : Nat) : String := String.mk (natDigitsList n)

/-- Character list of the canonical decimal rendering of an integer. -/
def intDigitsList (i : Int) : List Char :=
  if i < 0 then '-' :: natDigitsList i.natAbs else natDigitsList i.natAbs

/-- Canonical decimal rendering of an integer. -/
def renderInt (i : Int) : String := String.mk (intDigitsList i)

/-- Parse an optionally signed decimal integer from characters. -/
def parseIntChars (cs : List Char) : Option Int :=
  match cs with
  | [] => none
  | c :: rest =>
    if c = '-' then (parseNatDigits rest).map (fun n => -(n : Int))
    else if c = '+' then (parseNatDigits rest).map (fun n => (n : Int))
    else (parseNatDigits (c :: rest)).map (fun n => (n : Int))

/-! ### Round-trip lemmas for decimal rendering -/

theorem digitVal_digitChar {d : Nat} (h : d < 10) : digitVal (digitChar d) = some d := by
  interval_cases d <;> rfl

theorem parseDigitsFrom_append (acc : Nat) (xs ys : List Char) :
    parseDigitsFrom acc (xs ++ ys) =
      match parseDigitsFrom acc xs with
      | some a => parseDigitsFrom a ys
      | none => none := by
  induction xs generalizing acc with
  | nil => simp [parseDigitsFrom]
  | cons c cs ih =>
    simp only [List.cons_append, parseDigitsFrom]
    cases digitVal c with
    | none => rfl
    | some d => exact ih (acc * 10 + d)

theorem natDigitsList_ne_nil (n : Nat) : natDigitsList n ≠ [] := by
  rw [natDigitsList]
  split <;> simp

theorem parseDigitsFrom_natDigitsList (n : Nat) : ∀ acc : Nat,
    parseDigitsFrom acc (natDigitsList n) =
      some (acc * 10 ^ (natDigitsList n).length + n) := by
  induction n using Nat.strongRecOn with
  | _ n ih =>
    intro acc
    rw [natDigitsList]
    split
    · next h =>
      simp [parseDigitsFrom, digitVal_digitChar h]
    · next h =>
      have hlt : n / 10 < n := Nat.div_lt_self (by omega) (by omega)
      rw [parseDigitsFrom_append, ih (n / 10) hlt acc]
      have hm : n % 10 < 10 := Nat.mod_lt _ (by omega)
      simp only [parseDigitsFrom, digitVal_digitChar hm, List.length_append,
        List.length_singleton]
      congr 1
      have := Nat.div_add_mod n 10
      ring_nf
      omega

theorem parseNatDigits_natDigitsList (n : Nat) :
    parseNatDigits (natDigitsList n) = some n := by
  have hne := natDigitsList_ne_nil n
  rcases hcons : natDigitsList n with _ | ⟨c, cs⟩
  · exact absurd hcons hne
  · have := parseDigitsFrom_natDigitsList n 0
    rw [hcons] at this
    simpa [parseNatDigits] using this

theorem natDigitsList_all_digit (n : Nat) :
    ∀ c ∈ natDigitsList n, 48 ≤ c.toNat ∧ c.toNat ≤ 57 := by
  induction n using Nat.strongRecOn with
  | _ n ih =>
    intro c hc
    rw [natDigitsList] at hc
    split at hc
    · next h =>
      simp only [List.mem_singleton] at hc
      subst hc
      interval_cases n <;> simp [digitChar]
    · next h =>
      rcases List.mem_append.mp hc with h1 | h2
      · exact ih (n / 10) (Nat.div_lt_self (by omega) (by omega)) c h1
      · simp only [List.mem_singleton] at h2
        subst h2
        have hm : n % 10 < 10 := Nat.mod_lt _ (by omega)
        interval_cases hh : n % 10 <;> simp_all [digitChar]

theorem parseIntChars_intDigitsList (i : Int) :
    parseIntChars (intDigitsList i) = some i := by
  by_cases hi : i < 0
  · have h1 : (i.natAbs : Int) = -i := Int.ofNat_natAbs_of_nonpos (by omega)
    simp [intDigitsList, if_pos hi, parseIntChars, parseNatDigits_natDigitsList, h1]
  · simp only [intDigitsList, if_neg hi]
    rcases hcons : natDigitsList i.natAbs with _ | ⟨c, cs⟩
    · exact absurd hcons (natDigitsList_ne_nil _)
    · have hdig : 48 ≤ c.toNat ∧ c.toNat ≤ 57 := by
        apply natDigitsList_all_digit i.natAbs
        rw [hcons]; exact List.mem_cons_self _ _
      have hcm : c ≠ '-' := by
        intro hEq; subst hEq; exact absurd hdig (by decide)
      have hcp : c ≠ '+' := by
        intro hEq; subst hEq; exact absurd hdig (by decide)
      have := parseNatDigits_natDigitsList i.natAbs
      rw [hcons] at this
      have h1 : (i.natAbs : Int) = i := Int.natAbs_of_nonneg (Int.not_lt.mp hi)
      simp [parseIntChars, if_neg hcm, if_neg hcp, this, h1]

/-! ## Scalar coercion (Type Coercer, scalar shapes)

Modelled from the spec: the Type Coercer itself lives in the binder source
file that is not among the sources at hand; §4.4 gives its contract
(canonical textual grammars for boolean, integers of each width, unsigned
integers, floats, and verbatim strings). -/

/-- Modelled from the spec: boolean coercion follows the Go canonical
boolean grammar used by the engine (accepting the usual truthy and falsy
spellings), as exercised by the `required` tag handling in `usage.go`. -/
def goParseBool (s : String) : Except String Bool :=
  if s = "1" ∨ s = "t" ∨ s = "T" ∨ s = "true" ∨ s = "TRUE" ∨ s = "True" then .ok true
  else if s = "0" ∨ s = "f" ∨ s = "F" ∨ s = "false" ∨ s = "FALSE" ∨ s = "False" then .ok false
  else .error ("invalid boolean syntax " ++ s)

/-- Canonical rendering of a boolean. -/
def renderBool (b : Bool) : String := if b then "true" else "false"

/-- Modelled from the spec: signed-integer coercion of width `w` parses the
canonical decimal grammar and enforces the width's range. -/
def parseIntW (w : Nat) (s : String) : Except String Int :=
  match parseIntChars s.toList with
  | none => .error ("invalid integer syntax " ++ s)
  | some i =>
    if -(2 ^ (w - 1) : Int) ≤ i ∧ i < 2 ^ (w - 1) then .ok i
    else .error ("value out of range " ++ s)

/-- Modelled from the spec: unsigned-integer coercion of width `w` parses
the canonical decimal digit grammar and enforces the width's range. -/
def parseUintW (w : Nat) (s : String) : Except String Nat :=
  match parseNatDigits s.toList with
  | none => .error ("invalid unsigned integer syntax " ++ s)
  | some n =>
    if n < 2 ^ w then .ok n else .error ("value out of range " ++ s)

/-- A floating value, modelled exactly as a decimal-scientific pair
`mantissa * 10 ^ exponent` (the spec fixes only a canonical textual
grammar, not a bit-level representation). -/
structure FloatVal where
  mantissa : Int
  exponent : Int
deriving DecidableEq

/-- Canonical rendering of a floating value: mantissa, `e`, exponent. -/
def renderFloat (v : FloatVal) : String :=
  String.mk (intDigitsList v.mantissa ++ 'e' :: intDigitsList v.exponent)

/-- Split a character list at its first `e`, when there is one. -/
def splitAtE : List Char → Option (List Char × List Char)
  | [] => none
  | c :: cs =>
    if c = 'e' then some ([], cs)
    else (splitAtE cs).map (fun p => (c :: p.1, p.2))

/-- Modelled from the spec: float coercion reads the canonical
mantissa-`e`-exponent decimal grammar. -/
def parseFloatCanon (s : String) : Except String FloatVal :=
  match splitAtE s.toList with
  | some (ms, es) =>
    match parseIntChars ms, parseIntChars es with
    | some m, some ex => .ok ⟨m, ex⟩
    | _, _ => .error ("invalid float syntax " ++ s)
  | none => .error ("invalid float syntax " ++ s)

/-- Modelled from the spec: string coercion uses the raw value verbatim,
with no trimming. -/
def coerceString (s : String) : Except String String := .ok s

/-! ## String primitives

Structural models of the string-library operations the engine uses
(uppercasing, prefix test, splitting on a delimiter character). -/

/-- ASCII uppercasing of one character. -/
def upperChar (c : Char) : Char :=
  if c.isLower then Char.ofNat (c.toNat - 32) else c

/-- ASCII uppercasing of a string. -/
def upperStr (s : String) : String := String.mk (s.toList.map upperChar)

/-- Whether `s` starts with the prefix `p`. -/
def strHasPfx (p s : String) : Bool := p.toList.isPrefixOf s.toList

/-- Split a character list on every occurrence of a delimiter character. -/
def splitOnChar (sep : Char) : List Char → List (List Char)
  | [] => [[]]
  | c :: cs =>
    if c = sep then [] :: splitOnChar sep cs
    else
      match splitOnChar sep cs with
      | [] => [[c]]
      | g :: gs => (c :: g) :: gs

/-- Split a string on every comma. -/
def splitOnComma (s : String) : List String :=
  (splitOnChar ',' s.toList).map String.mk

/-- Split a string on every colon. -/
def splitOnColon (s : String) : List String :=
  (splitOnChar ':' s.toList).map String.mk

/-! ## Key Resolver

Modelled from the spec: the key-resolution code lives in the binder source
file that is not among the sources at hand; §4.1 gives the algorithm. -/

/-- One separator-insertion step: a separator goes between a lowercase
letter and an uppercase letter, and between a letter and a digit. -/
def needSep (a b : Char) : Bool := (a.isLower && b.isUpper) || (a.isAlpha && b.isDigit)

/-- Insert separators after a known previous character. -/
def splitWordsAux (prev : Char) : List Char → List Char
  | [] => []
  | c :: cs =>
    (if needSep prev c then ['_', c] else [c]) ++ splitWordsAux c cs

/-- Modelled from the spec: insert a separator at each lowercase-to-uppercase
and letter-to-digit transition of a field name. -/
def splitWordsName (s : String) : String :=
  match s.toList with
  | [] => ""
  | c :: cs => String.mk (c :: splitWordsAux c cs)

/-- Join an optional global key namespace in front of a key with the
separator. -/
def joinPfx : Option String → String → String
  | none, k => k
  | some p, k => p ++ "_" ++ k

/-- Modelled from the spec: the Key Resolver of §4.1. An explicit override is
used verbatim (still namespaced); otherwise the field name, word-split when
enabled, is uppercased, and the namespace, when present, is joined in front
with a separator. -/
def resolveKey (pfx : Option String) (override : Option String)
    (splitW : Bool) (fieldName : String) : String :=
  match override with
  | some o => joinPfx pfx o
  | none =>
    let base := if splitW then splitWordsName fieldName else fieldName
    joinPfx pfx (upperStr base)

/-! ## Values, fields and the Binder

Modelled from the spec: the Binder (`Process`) and Field Walker live in the
binder source file that is not among the sources at hand; §4.2, §4.5 and §7
give the traversal, lookup, defaulting, required handling and error
aggregation. Records are modelled as their flattened leaf-field sequence. -/

/-- A bound configuration value. -/
inductive Value where
  | vBool (b : Bool)
  | vInt (i : Int)
  | vNat (n : Nat)
  | vStr (s : String)
  | vList (xs : List Value)
  | vPairs (xs : List (String × String))

/-- A structured per-field failure: field name, looked-up key, raw value and
underlying cause. -/
structure BindError where
  fieldName : String
  key : String
  rawValue : String
  cause : String
deriving DecidableEq

/-- Static description of one leaf field: name, tag metadata, and its
conversion function (capability dispatch or built-in coercion, fixed by the
field's type). -/
structure FieldSpec where
  fieldName : String
  nameOverride : Option String
  altNames : List String
  defaultVal : Option String
  required : Bool
  splitW : Bool
  coerce : String → Except String Value

/-- A leaf field of a record instance: its static description plus its
current value. -/
structure Field where
  spec : FieldSpec
  value : Value

/-- First hit among a list of keys against the key/value source. -/
def firstHit (lookup : String → Option String) : List String → Option String
  | [] => none
  | k :: ks =>
    match lookup k with
    | some v => some v
    | none => firstHit lookup ks

/-- The resolved key of a field under a namespace. -/
def fieldKey (pfx : Option String) (f : Field) : String :=
  resolveKey pfx f.spec.nameOverride f.spec.splitW f.spec.fieldName

/-- Modelled from the spec: per-field step of the Binder (§4.5): resolve the
key, look it up (alternate names next, first hit wins); if absent use the
default, else fail when required, else skip; coerce a present or defaulted
raw value, recording a structured failure on a conversion error. Returns
the (possibly updated) field and an optional per-field failure. -/
def processField (pfx : Option String) (lookup : String → Option String)
    (f : Field) : Field × Option BindError :=
  let key := fieldKey pfx f
  match firstHit lookup (key :: f.spec.altNames) with
  | some raw =>
    match f.spec.coerce raw with
    | .ok v => ({ f with value := v }, none)
    | .error e => (f, some ⟨f.spec.fieldName, key, raw, e⟩)
  | none =>
    match f.spec.defaultVal with
    | some d =>
      match f.spec.coerce d with
      | .ok v => ({ f with value := v }, none)
      | .error e => (f, some ⟨f.spec.fieldName, key, d, e⟩)
    | none =>
      if f.spec.required then
        (f, some ⟨f.spec.fieldName, key, "", "required key " ++ key ++ " missing value"⟩)
      else (f, none)

/-- Modelled from the spec: one binding pass over all fields, producing the
updated fields and the collected per-field failures in visitation order. -/
def bindFields (pfx : Option String) (lookup : String → Option String) :
    List Field → List Field × List BindError
  | [] => ([], [])
  | f :: fs =>
    let (f1, e1) := processField pfx lookup f
    let (fs1, es) := bindFields pfx lookup fs
    (f1 :: fs1, e1.toList ++ es)

/-- Modelled from the spec: the Binder entry point (§4.5): run one pass; if
any field failed, return the aggregate error listing every per-field
failure in visitation order, else the populated record. -/
def Process (pfx : Option String) (lookup : String → Option String)
    (fields : List Field) : Except (List BindError) (List Field) :=
  let (fs, es) := bindFields pfx lookup fields
  if es.isEmpty then .ok fs else .error es

/-! ## Composite coercion (sequences and maps) -/

/-- Coerce each substring in order, failing on the first element failure. -/
def mapME (f : String → Except String α) : List String → Except String (List α)
  | [] => .ok []
  | x :: xs =>
    match f x with
    | .error e => .error e
    | .ok y =>
      match mapME f xs with
      | .error e => .error e
      | .ok ys => .ok (y :: ys)

/-- Modelled from the spec: sequence coercion (§4.4) splits the raw value on
commas and coerces each substring as an element, in order. -/
def coerceSliceVals (ec : String → Except String α) (raw : String) :
    Except String (List α) :=
  mapME ec (splitOnComma raw)

/-- Modelled from the spec: fixed-length sequence coercion (§4.4) requires
the comma-split segment count to match the target length exactly. -/
def coerceArrayVals (len : Nat) (ec : String → Except String α) (raw : String) :
    Except String (List α) :=
  let parts := splitOnComma raw
  if parts.length = len then mapME ec parts
  else .error ("element count mismatch in " ++ raw)

/-- Modelled from the spec: split one map pair on the colon into key and
value substrings and coerce each half; a pair without exactly one colon is
a conversion error. -/
def coerceMapPair (kc : String → Except String α) (vc : String → Except String β)
    (pair : String) : Except String (α × β) :=
  match splitOnColon pair with
  | [k, v] =>
    match kc k with
    | .error e => .error e
    | .ok kk =>
      match vc v with
      | .error e => .error e
      | .ok vv => .ok (kk, vv)
  | _ => .error ("invalid map item " ++ pair)

/-- Insert a binding into an association list, overwriting an existing
binding for the same key (last wins). -/
def assocPut [DecidableEq α] : List (α × β) → α → β → List (α × β)
  | [], k, v => [(k, v)]
  | (k0, v0) :: rest, k, v =>
    if k0 = k then (k0, v) :: rest else (k0, v0) :: assocPut rest k v

/-- Modelled from the spec: map coercion (§4.4) splits the raw value on
commas into pairs, each pair on a colon, and assigns the coerced pairs in
order with duplicate keys silently overwritten. -/
def coerceMapVals [DecidableEq α] (kc : String → Except String α)
    (vc : String → Except String β) (raw : String) :
    Except String (List (α × β)) :=
  match mapME (coerceMapPair kc vc) (splitOnComma raw) with
  | .error e => .error e
  | .ok prs => .ok (prs.foldl (fun m kv => assocPut m kv.1 kv.2) [])

/-! ## Capability dispatch -/

/-- Which of the four decoding interfaces a type and its pointer form
implement (Decoder, Setter, TextUnmarshaler, BinaryUnmarshaler). -/
structure CapSet where
  decoderSelf : Bool
  decoderPtr : Bool
  setterSelf : Bool
  setterPtr : Bool
  textSelf : Bool
  textPtr : Bool
  binarySelf : Bool
  binaryPtr : Bool
deriving DecidableEq

/-- `implementsInterface` from `usage.go`: the type or its pointer form
implements at least one of the four decoding interfaces, checked in the
source's order. -/
def implementsInterface (c : CapSet) : Bool :=
  c.decoderSelf || c.decoderPtr ||
  c.setterSelf || c.setterPtr ||
  c.textSelf || c.textPtr ||
  c.binarySelf || c.binaryPtr

/-- The type has the self-decoding capability (on itself or its pointer). -/
def hasDecoder (c : CapSet) : Bool := c.decoderSelf || c.decoderPtr

/-- The type has the self-setting capability (on itself or its pointer). -/
def hasSetter (c : CapSet) : Bool := c.setterSelf || c.setterPtr

/-- The type has the text-unmarshal capability (on itself or its pointer). -/
def hasText (c : CapSet) : Bool := c.textSelf || c.textPtr

/-- The type has the binary-unmarshal capability (on itself or its pointer). -/
def hasBinary (c : CapSet) : Bool := c.binarySelf || c.binaryPtr

/-- A field type's conversion behavior: its capability set, the conversion
function each capability would perform, and the built-in coercion for its
shape. -/
structure TypedDecoder where
  caps : CapSet
  decode : String → Except String Value
  setv : String → Except String Value
  unmarshalText : String → Except String Value
  unmarshalBinary : String → Except String Value
  builtin : String → Except String Value

/-- Modelled from the spec: the Capability Dispatcher (§4.3): use the first
capability found in the fixed order self-decode, self-set, text-unmarshal,
binary-unmarshal, and only fall back to built-in coercion when none is
present. -/
def dispatchDecode (t : TypedDecoder) (raw : String) : Except String Value :=
  if hasDecoder t.caps then t.decode raw
  else if hasSetter t.caps then t.setv raw
  else if hasText t.caps then t.unmarshalText raw
  else if hasBinary t.caps then t.unmarshalBinary raw
  else t.builtin raw

/-- The first capability of a type in the fixed dispatch order, if any. -/
def firstCapability (t : TypedDecoder) : Option (String → Except String Value) :=
  if hasDecoder t.caps then some t.decode
  else if hasSetter t.caps then some t.setv
  else if hasText t.caps then some t.unmarshalText
  else if hasBinary t.caps then some t.unmarshalBinary
  else none

/-! ## Metadata gathering (`gatherInfo`, used by `UsagetX`) -/

/-- A usage descriptor for one field, as consumed by the usage templates. -/
structure VarInfo where
  key : String
  fieldName : String
  defaultVal : Option String
  required : Bool
deriving DecidableEq

/-- The descriptor a field's static description gives rise to. -/
def infoOfSpec (pfx : Option String) (s : FieldSpec) : VarInfo :=
  { key := resolveKey pfx s.nameOverride s.splitW s.fieldName,
    fieldName := s.fieldName,
    defaultVal := s.defaultVal,
    required := s.required }

/-- Modelled from the spec: the Metadata Gatherer (§4.6), the traversal
`UsagetX` invokes through `gatherInfo`: the Binder's traversal with no
lookup and no assignment, returning the record as it was together with the
descriptor sequence. -/
def gatherInfo (pfx : Option String) (fields : List Field) :
    List Field × List VarInfo :=
  (fields, fields.map (fun f => infoOfSpec pfx f.spec))

/-! ## Usage rendering helpers from `usage.go` -/

/-- The `usage_required` template function from `usage.go`: an empty
`required` tag is returned as is; otherwise the tag is parsed as a boolean
(an unparseable tag is an error), a true tag is normalized to `true`, and a
false tag is returned verbatim. -/
def usage_required (req : String) : Except String String :=
  if req ≠ "" then
    match goParseBool req with
    | .error e => .error e
    | .ok true => .ok "true"
    | .ok false => .ok req
  else .ok req

/-- The shape of a Go type as far as `toTypeDescription` inspects it: kind,
declared name for named types, capability set for struct types, element and
key types for composites; other kinds carry their printed form. -/
inductive GoType where
  | array (elem : GoType)
  | slice (elem : GoType)
  | mapT (key elem : GoType)
  | ptr (elem : GoType)
  | structT (name : String) (caps : CapSet)
  | stringT (name : String)
  | boolT (name : String)
  | intT (name : String)
  | uintT (name : String)
  | floatT (name : String)
  | otherT (printed : String)

/-- `toTypeDescription` from `usage.go`: the human-readable description of a
type, by kind. -/
def toTypeDescription : GoType → String
  | .array e => "Comma-separated list of " ++ toTypeDescription e
  | .slice e => "Comma-separated list of " ++ toTypeDescription e
  | .mapT k e =>
    "Comma-separated list of " ++ toTypeDescription k ++ ":" ++
      toTypeDescription e ++ " pairs"
  | .ptr e => toTypeDescription e
  | .structT name caps =>
    if implementsInterface caps && name ≠ "" then name else ""
  | .stringT name => if name ≠ "" && name ≠ "string" then name else "String"
  | .boolT name => if name ≠ "" && name ≠ "bool" then name else "True or False"
  | .intT name =>
    if name ≠ "" && ¬ strHasPfx "int" name then name else "Integer"
  | .uintT name =>
    if name ≠ "" && ¬ strHasPfx "uint" name then name else "Unsigned Integer"
  | .floatT name =>
    if name ≠ "" && ¬ strHasPfx "float" name then name else "Float"
  | .otherT printed => printed

/-! ## Helper lemmas -/

theorem toList_mk (cs : List Char) : (String.mk cs).toList = cs := rfl

theorem bindFields_eq (pfx : Option String) (lookup : String → Option String) :
    ∀ fields : List Field,
      bindFields pfx lookup fields =
        (fields.map (fun f => (processField pfx lookup f).1),
         fields.filterMap (fun f => (processField pfx lookup f).2)) := by
  intro fields
  induction fields with
  | nil => rfl
  | cons f fs ih =>
    rcases hp : processField pfx lookup f with ⟨f1, e1⟩
    cases e1 <;> simp [bindFields, hp, ih]

theorem processField_skips (pfx : Option String) (lookup : String → Option String)
    (f : Field) (h1 : f.spec.required = false) (h2 : f.spec.defaultVal = none)
    (h3 : firstHit lookup (fieldKey pfx f :: f.spec.altNames) = none) :
    processField pfx lookup f = (f, none) := by
  simp [processField, h3, h2, h1]

theorem bindFields_all_skipped (pfx : Option String) (lookup : String → Option String) :
    ∀ fields : List Field,
      (∀ f ∈ fields, f.spec.required = false ∧ f.spec.defaultVal = none ∧
          firstHit lookup (fieldKey pfx f :: f.spec.altNames) = none) →
      bindFields pfx lookup fields = (fields, []) := by
  intro fields
  induction fields with
  | nil => intro _; rfl
  | cons f fs ih =>
    intro h
    have hf := h f (List.mem_cons_self f fs)
    have ihfs := ih (fun g hg => h g (List.mem_cons_of_mem f hg))
    simp [bindFields, processField_skips pfx lookup f hf.1 hf.2.1 hf.2.2, ihfs]

/-! ## The claims -/

/-- A field whose conversion fails on the looked-up raw value. -/
def convFailField : Field :=
  { spec := { fieldName := "Debug", nameOverride := none, altNames := [],
              defaultVal := none, required := false, splitW := false,
              coerce := fun s => (goParseBool s).map Value.vBool },
    value := Value.vBool false }

/-- A required field with no source value and no default. -/
def missingReqField : Field :=
  { spec := { fieldName := "Port", nameOverride := none, altNames := [],
              defaultVal := none, required := true, splitW := false,
              coerce := fun s => (parseIntW 16 s).map Value.vInt },
    value := Value.vInt 0 }

/-- A source with an unconvertible value under `DEBUG` and nothing else. -/
def demoLookup : String → Option String :=
  fun k => if k = "DEBUG" then some "maybe" else none

/-- C1: a binding pass does not stop at the first failing field: the result
is the aggregate of every per-field failure (conversion and
missing-required alike) in field-visitation order, and is an error exactly
when that aggregate is nonempty; concretely, one pass over a record with a
conversion failure followed by a missing-required failure reports both, in
order. -/
theorem Process_aggregates_all_failures :
    (∀ (pfx : Option String) (lookup : String → Option String) (fields : List Field),
      Process pfx lookup fields =
        if (fields.filterMap (fun f => (processField pfx lookup f).2)).isEmpty then
          .ok (fields.map (fun f => (processField pfx lookup f).1))
        else .error (fields.filterMap (fun f => (processField pfx lookup f).2))) ∧
    Process none demoLookup [convFailField, missingReqField] =
      .error [⟨"Debug", "DEBUG", "maybe", "invalid boolean syntax maybe"⟩,
              ⟨"Port", "PORT", "", "required key PORT missing value"⟩] := by
  refine ⟨?_, rfl⟩
  intro pfx lookup fields
  simp [Process, bindFields_eq]

/-- C3: the key resolver is total and deterministic: an explicit override is
used verbatim (still under the namespace); otherwise the field name,
word-split when enabled, is uppercased; the namespace, when present, is
joined in front with a separator. -/
theorem resolveKey_characterization :
    (∀ (pfx : Option String) (o : String) (sw : Bool) (n : String),
        resolveKey pfx (some o) sw n = joinPfx pfx o) ∧
    (∀ (pfx : Option String) (n : String),
        resolveKey pfx none true n = joinPfx pfx (upperStr (splitWordsName n))) ∧
    (∀ (pfx : Option String) (n : String),
        resolveKey pfx none false n = joinPfx pfx (upperStr n)) ∧
    (∀ (p k : String), joinPfx none k = k ∧ joinPfx (some p) k = p ++ "_" ++ k) ∧
    resolveKey none none true "CamelCase7" = "CAMEL_CASE_7" ∧
    resolveKey (some "app") (some "Fancy") true "Whatever" = "app_Fancy" ∧
    resolveKey (some "env_config") none false "URLValue" = "env_config_URLVALUE" :=
  ⟨fun _ _ _ _ => rfl, fun _ _ => rfl, fun _ _ => rfl,
   fun _ _ => ⟨rfl, rfl⟩, rfl, rfl, rfl⟩

/-- C4: binding a record whose fields are all optional, defaultless and
absent from the source succeeds and returns every field unchanged. -/
theorem Process_frame_optional_absent :
    ∀ (pfx : Option String) (lookup : String → Option String) (fields : List Field),
      (∀ f ∈ fields, f.spec.required = false ∧ f.spec.defaultVal = none ∧
          firstHit lookup (fieldKey pfx f :: f.spec.altNames) = none) →
      Process pfx lookup fields = .ok fields := by
  intro pfx lookup fields h
  simp [Process, bindFields_all_skipped pfx lookup fields h]

/-- An optional string-typed field left at its zero value. -/
def optFieldA : Field :=
  { spec := { fieldName := "Opt1", nameOverride := none, altNames := [],
              defaultVal := none, required := false, splitW := false,
              coerce := fun s => Except.ok (Value.vStr s) },
    value := Value.vStr "" }

/-- An optional integer-typed field left at its zero value. -/
def optFieldB : Field :=
  { spec := { fieldName := "Opt2", nameOverride := none, altNames := [],
              defaultVal := none, required := false, splitW := false,
              coerce := fun s => (parseIntW 32 s).map Value.vInt },
    value := Value.vInt 0 }

theorem Process_frame_optional_absent_witness :
    Process none (fun _ => none) [optFieldA, optFieldB] = .ok [optFieldA, optFieldB] :=
  Process_frame_optional_absent none (fun _ => none) [optFieldA, optFieldB] (by
    intro f hf
    simp only [List.mem_cons, List.not_mem_nil, or_false] at hf
    rcases hf with rfl | rfl <;> exact ⟨rfl, rfl, rfl⟩)

theorem implementsInterface_eq (c : CapSet) :
    implementsInterface c = (hasDecoder c || hasSetter c || hasText c || hasBinary c) := by
  simp [implementsInterface, hasDecoder, hasSetter, hasText, hasBinary, Bool.or_assoc]

/-- C2: a field type exposing at least one of the four decoding
capabilities is converted by exactly the first capability found in the
fixed order self-decode, self-set, text-unmarshal, binary-unmarshal, and
the built-in coercion of its shape is never consulted. -/
theorem dispatchDecode_first_capability :
    ∀ (t : TypedDecoder) (raw : String),
      implementsInterface t.caps = true →
        (∃ g, firstCapability t = some g ∧ dispatchDecode t raw = g raw) ∧
        (∀ b, dispatchDecode { t with builtin := b } raw = dispatchDecode t raw) ∧
        (hasDecoder t.caps = true → dispatchDecode t raw = t.decode raw) ∧
        (hasDecoder t.caps = false → hasSetter t.caps = true →
          dispatchDecode t raw = t.setv raw) ∧
        (hasDecoder t.caps = false → hasSetter t.caps = false → hasText t.caps = true →
          dispatchDecode t raw = t.unmarshalText raw) ∧
        (hasDecoder t.caps = false → hasSetter t.caps = false → hasText t.caps = false →
          hasBinary t.caps = true → dispatchDecode t raw = t.unmarshalBinary raw) := by
  intro t raw himpl
  rw [implementsInterface_eq] at himpl
  cases hD : hasDecoder t.caps <;> cases hS : hasSetter t.caps <;>
    cases hT : hasText t.caps <;> cases hB : hasBinary t.caps <;>
      simp_all [dispatchDecode, firstCapability]

/-- A field type with only the text-unmarshal capability, whose capability
decodes differently from its built-in shape coercion. -/
def textOnlyDecoder : TypedDecoder :=
  { caps := { decoderSelf := false, decoderPtr := false, setterSelf := false,
              setterPtr := false, textSelf := true, textPtr := false,
              binarySelf := false, binaryPtr := false },
    decode := fun _ => .error "decode",
    setv := fun _ => .error "setv",
    unmarshalText := fun s => .ok (.vStr ("text:" ++ s)),
    unmarshalBinary := fun _ => .error "binary",
    builtin := fun s => .ok (.vStr s) }

theorem dispatchDecode_first_capability_witness :
    implementsInterface textOnlyDecoder.caps = true ∧
    dispatchDecode textOnlyDecoder "42" = Except.ok (Value.vStr "text:42") := by
  refine ⟨rfl, ?_⟩
  have h := dispatchDecode_first_capability textOnlyDecoder "42" rfl
  exact (h.2.2.2.2.1 rfl rfl rfl).trans rfl

theorem mapME_ok_map (f : String → α) : ∀ l : List String,
    mapME (fun s => Except.ok (f s)) l = .ok (l.map f) := by
  intro l
  induction l with
  | nil => rfl
  | cons x xs ih => simp [mapME, ih]

/-- C5: sequence coercion splits the raw value on commas and coerces each
substring as an element in order; `a,b,c` yields the three-element sequence
in order, and a four-entry raw value against a fixed-length-3 target fails
with a conversion error. -/
theorem coerceSlice_comma_split :
    (∀ (f : String → Value) (raw : String),
        coerceSliceVals (fun s => Except.ok (f s)) raw = .ok ((splitOnComma raw).map f)) ∧
    coerceSliceVals (fun s => Except.ok (Value.vStr s)) "a,b,c" =
      .ok [Value.vStr "a", Value.vStr "b", Value.vStr "c"] ∧
    (splitOnComma "a,b,c").length = 3 ∧
    coerceArrayVals 3 (fun s => Except.ok (Value.vStr s)) "a,b,c" =
      .ok [Value.vStr "a", Value.vStr "b", Value.vStr "c"] ∧
    coerceArrayVals 3 (fun s => Except.ok (Value.vStr s)) "a,b,c,d" =
      .error "element count mismatch in a,b,c,d" :=
  ⟨fun f raw => mapME_ok_map f (splitOnComma raw), rfl, rfl, rfl, rfl⟩

/-- A map-typed field binding string keys to string values. -/
def mapDemoField : Field :=
  { spec := { fieldName := "Pairs", nameOverride := none, altNames := [],
              defaultVal := none, required := false, splitW := false,
              coerce := fun s =>
                match coerceMapVals (fun k => Except.ok k) (fun v => Except.ok v) s with
                | .ok m => .ok (Value.vPairs m)
                | .error e => .error e },
    value := Value.vPairs [] }

/-- A source holding a malformed map pair under `PAIRS`. -/
def mapDemoLookup : String → Option String :=
  fun k => if k = "PAIRS" then some "k1v1" else none

/-- C6: map coercion splits the raw value on commas into pairs and each
pair on a colon into an independently coerced key and value; `k1:v1,k2:v2`
yields the two-pair mapping, a pair without a colon is a conversion error
carried on the field that declared the map, and a duplicated key is
silently overwritten by the later pair. -/
theorem coerceMap_pairs_last_wins :
    coerceMapVals (fun k => Except.ok k) (fun v => Except.ok v) "k1:v1,k2:v2" =
      .ok [("k1", "v1"), ("k2", "v2")] ∧
    coerceMapPair (fun k => Except.ok k) (fun v => Except.ok v) "k1v1" =
      .error "invalid map item k1v1" ∧
    (processField none mapDemoLookup mapDemoField).2 =
      some ⟨"Pairs", "PAIRS", "k1v1", "invalid map item k1v1"⟩ ∧
    coerceMapVals (fun k => Except.ok k) (fun v => Except.ok v) "a:1,a:2" =
      .ok [("a", "2")] :=
  ⟨rfl, rfl, rfl, rfl⟩

/-- C7: metadata gathering returns the record unchanged, consults no
key/value source (its descriptor output is a function of the field
descriptions and options alone, never of the stored values), and produces
one descriptor per field. -/
theorem gatherInfo_pure_and_frame :
    ∀ (pfx : Option String) (fields fields2 : List Field),
      fields.map Field.spec = fields2.map Field.spec →
        (gatherInfo pfx fields).1 = fields ∧
        (gatherInfo pfx fields).2 = (gatherInfo pfx fields2).2 ∧
        (gatherInfo pfx fields).2 = fields.map (fun f => infoOfSpec pfx f.spec) := by
  intro pfx fields fields2 h
  refine ⟨rfl, ?_, rfl⟩
  show fields.map (infoOfSpec pfx ∘ Field.spec) = fields2.map (infoOfSpec pfx ∘ Field.spec)
  rw [← List.map_map, ← List.map_map, h]

/-- A field description used to compare gathering across distinct values. -/
def gatherDemoSpec : FieldSpec :=
  { fieldName := "Debug", nameOverride := none, altNames := [],
    defaultVal := some "false", required := false, splitW := false,
    coerce := fun s => Except.ok (Value.vStr s) }

/-- A record holding one value. -/
def gatherFieldsX : List Field := [{ spec := gatherDemoSpec, value := Value.vStr "x" }]

/-- The same record shape holding a different value. -/
def gatherFieldsY : List Field := [{ spec := gatherDemoSpec, value := Value.vStr "y" }]

theorem gatherInfo_pure_and_frame_witness :
    (gatherInfo none gatherFieldsX).1 = gatherFieldsX ∧
    (gatherInfo none gatherFieldsX).2 = (gatherInfo none gatherFieldsY).2 ∧
    (gatherInfo none gatherFieldsX).2 =
      gatherFieldsX.map (fun f => infoOfSpec none f.spec) :=
  gatherInfo_pure_and_frame none gatherFieldsX gatherFieldsY rfl

theorem splitAtE_append (xs ys : List Char) (h : ∀ x ∈ xs, x ≠ 'e') :
    splitAtE (xs ++ 'e' :: ys) = some (xs, ys) := by
  induction xs with
  | nil => simp [splitAtE]
  | cons c cs ih =>
    have hc : c ≠ 'e' := h c (List.mem_cons_self c cs)
    simp [splitAtE, hc, ih (fun x hx => h x (List.mem_cons_of_mem c hx))]

theorem intDigitsList_ne_e (i : Int) : ∀ c ∈ intDigitsList i, c ≠ 'e' := by
  intro c hc heq
  subst heq
  unfold intDigitsList at hc
  split at hc
  · rcases List.mem_cons.mp hc with h1 | h2
    · exact absurd h1 (by decide)
    · have := natDigitsList_all_digit i.natAbs 'e' h2
      have h101 : ('e').toNat = 101 := rfl
      omega
  · have := natDigitsList_all_digit i.natAbs 'e' hc
    have h101 : ('e').toNat = 101 := rfl
    omega

theorem parseIntW_renderInt (w : Nat) (i : Int)
    (h1 : -(2 ^ (w - 1) : Int) ≤ i) (h2 : i < 2 ^ (w - 1)) :
    parseIntW w (renderInt i) = .ok i := by
  simp [parseIntW, renderInt, toList_mk, parseIntChars_intDigitsList, h1, h2]

theorem parseFloatCanon_renderFloat (v : FloatVal) :
    parseFloatCanon (renderFloat v) = .ok v := by
  obtain ⟨m, ex⟩ := v
  simp [parseFloatCanon, renderFloat, toList_mk,
    splitAtE_append _ _ (intDigitsList_ne_e m), parseIntChars_intDigitsList]

/-- C8: for each scalar shape (boolean, signed integer of any width,
unsigned integer of any width, float, string), rendering a value of the
shape in its canonical textual grammar and coercing the rendered string
back yields the original value. -/
theorem scalar_render_coerce_roundtrip :
    (∀ b : Bool, goParseBool (renderBool b) = .ok b) ∧
    (∀ (w : Nat) (i : Int), -(2 ^ (w - 1) : Int) ≤ i → i < 2 ^ (w - 1) →
        parseIntW w (renderInt i) = .ok i) ∧
    (∀ (w n : Nat), n < 2 ^ w → parseUintW w (renderNat n) = .ok n) ∧
    (∀ v : FloatVal, parseFloatCanon (renderFloat v) = .ok v) ∧
    (∀ s : String, coerceString s = .ok s) := by
  refine ⟨?_, parseIntW_renderInt, ?_, parseFloatCanon_renderFloat, fun _ => rfl⟩
  · intro b; cases b <;> rfl
  · intro w n h
    simp [parseUintW, renderNat, toList_mk, parseNatDigits_natDigitsList, h]

theorem scalar_render_coerce_roundtrip_witness :
    parseIntW 8 (renderInt (-128)) = .ok (-128) ∧
    parseUintW 16 (renderNat 65535) = .ok 65535 ∧
    goParseBool (renderBool true) = .ok true ∧
    parseFloatCanon (renderFloat ⟨-25, -2⟩) = .ok ⟨-25, -2⟩ ∧
    coerceString "hello world" = .ok "hello world" :=
  ⟨scalar_render_coerce_roundtrip.2.1 8 (-128) (by norm_num) (by norm_num),
   scalar_render_coerce_roundtrip.2.2.1 16 65535 (by norm_num),
   scalar_render_coerce_roundtrip.1 true,
   scalar_render_coerce_roundtrip.2.2.2.1 ⟨-25, -2⟩,
   scalar_render_coerce_roundtrip.2.2.2.2 "hello world"⟩

/-- C9: the `usage_required` rendering helper returns the empty string for
an empty required tag, normalizes any tag parsing as boolean true to the
string `true`, returns a tag parsing as boolean false verbatim, and fails
(aborting usage rendering) on a nonempty tag that is not a parseable
boolean. -/
theorem usage_required_spec :
    usage_required "" = .ok "" ∧
    (∀ req, goParseBool req = .ok true → usage_required req = .ok "true") ∧
    (∀ req, goParseBool req = .ok false → usage_required req = .ok req) ∧
    (∀ req e, req ≠ "" → goParseBool req = .error e → usage_required req = .error e) := by
  refine ⟨rfl, ?_, ?_, ?_⟩
  · intro req h
    have hne : req ≠ "" := by
      intro hr
      subst hr
      rw [show goParseBool "" = Except.error "invalid boolean syntax " from rfl] at h
      cases h
    simp [usage_required, hne, h]
  · intro req h
    have hne : req ≠ "" := by
      intro hr
      subst hr
      rw [show goParseBool "" = Except.error "invalid boolean syntax " from rfl] at h
      cases h
    simp [usage_required, hne, h]
  · intro req e hne h
    simp [usage_required, hne, h]

theorem usage_required_spec_witness :
    usage_required "True" = .ok "true" ∧
    usage_required "1" = .ok "true" ∧
    usage_required "0" = .ok "0" ∧
    usage_required "False" = .ok "False" ∧
    usage_required "yes" = .error "invalid boolean syntax yes" :=
  ⟨usage_required_spec.2.1 "True" rfl,
   usage_required_spec.2.1 "1" rfl,
   usage_required_spec.2.2.1 "0" rfl,
   usage_required_spec.2.2.1 "False" rfl,
   usage_required_spec.2.2.2 "yes" "invalid boolean syntax yes" (by decide) rfl⟩

/-- C10: `toTypeDescription` is total; a pointer is described as its
pointee, an array or slice as a comma-separated list of its element
description, a map as a comma-separated list of key:value pairs; a struct
is described by its name exactly when the name is nonempty and the type or
its pointer form implements one of the four capability interfaces, and by
the empty string otherwise; and a named scalar is described by its declared
name unless that name is the built-in one (`string`, `bool`, or one
starting with `int`, `uint` or `float`), in which case the generic
description is used. -/
theorem toTypeDescription_characterization :
    (∀ e, toTypeDescription (.ptr e) = toTypeDescription e) ∧
    (∀ e, toTypeDescription (.array e) =
      "Comma-separated list of " ++ toTypeDescription e) ∧
    (∀ e, toTypeDescription (.slice e) =
      "Comma-separated list of " ++ toTypeDescription e) ∧
    (∀ k e, toTypeDescription (.mapT k e) =
      "Comma-separated list of " ++ toTypeDescription k ++ ":" ++
        toTypeDescription e ++ " pairs") ∧
    (∀ name caps, implementsInterface caps = true → name ≠ "" →
      toTypeDescription (.structT name caps) = name) ∧
    (∀ name caps, implementsInterface caps = false ∨ name = "" →
      toTypeDescription (.structT name caps) = "") ∧
    (∀ name, name ≠ "" → name ≠ "string" → toTypeDescription (.stringT name) = name) ∧
    toTypeDescription (.stringT "string") = "String" ∧
    toTypeDescription (.stringT "") = "String" ∧
    (∀ name, name ≠ "" → name ≠ "bool" → toTypeDescription (.boolT name) = name) ∧
    toTypeDescription (.boolT "bool") = "True or False" ∧
    toTypeDescription (.boolT "") = "True or False" ∧
    (∀ name, name ≠ "" → strHasPfx "int" name = false →
      toTypeDescription (.intT name) = name) ∧
    (∀ name, strHasPfx "int" name = true ∨ name = "" →
      toTypeDescription (.intT name) = "Integer") ∧
    (∀ name, name ≠ "" → strHasPfx "uint" name = false →
      toTypeDescription (.uintT name) = name) ∧
    (∀ name, strHasPfx "uint" name = true ∨ name = "" →
      toTypeDescription (.uintT name) = "Unsigned Integer") ∧
    (∀ name, name ≠ "" → strHasPfx "float" name = false →
      toTypeDescription (.floatT name) = name) ∧
    (∀ name, strHasPfx "float" name = true ∨ name = "" →
      toTypeDescription (.floatT name) = "Float") ∧
    (∀ printed, toTypeDescription (.otherT printed) = printed) := by
  refine ⟨fun _ => rfl, fun _ => rfl, fun _ => rfl, fun _ _ => rfl,
    ?_, ?_, ?_, rfl, rfl, ?_, rfl, rfl, ?_, ?_, ?_, ?_, ?_, ?_, fun _ => rfl⟩
  · intro name caps h hne
    simp [toTypeDescription, h, hne]
  · intro name caps h
    rcases h with h | rfl
    · simp [toTypeDescription, h]
    · simp [toTypeDescription]
  · intro name h1 h2
    simp [toTypeDescription, h1, h2]
  · intro name h1 h2
    simp [toTypeDescription, h1, h2]
  · intro name h1 h2
    simp [toTypeDescription, h1, h2]
  · intro name h
    rcases h with h | rfl
    · simp [toTypeDescription, h]
    · simp [toTypeDescription]
  · intro name h1 h2
    simp [toTypeDescription, h1, h2]
  · intro name h
    rcases h with h | rfl
    · simp [toTypeDescription, h]
    · simp [toTypeDescription]
  · intro name h1 h2
    simp [toTypeDescription, h1, h2]
  · intro name h
    rcases h with h | rfl
    · simp [toTypeDescription, h]
    · simp [toTypeDescription]

/-- The capability set of a type whose pointer form implements the
text-unmarshal interface only. -/
def urlCaps : CapSet :=
  { decoderSelf := false, decoderPtr := false, setterSelf := false,
    setterPtr := false, textSelf := false, textPtr := true,
    binarySelf := false, binaryPtr := false }

theorem toTypeDescription_characterization_witness :
    toTypeDescription (.structT "URL" urlCaps) = "URL" ∧
    toTypeDescription (.intT "intensity") = "Integer" ∧
    toTypeDescription (.intT "Level") = "Level" ∧
    toTypeDescription (.stringT "CustomName") = "CustomName" := by
  obtain ⟨hptr, harr, hsl, hmap, hstruct, hstruct0, hstr, hstr1, hstr2, hbool,
    hb1, hb2, hint, hint0, huint, huint0, hfloat, hfloat0, hother⟩ :=
    toTypeDescription_characterization
  exact ⟨hstruct "URL" urlCaps rfl (by decide),
    hint0 "intensity" (Or.inl rfl),
    hint "Level" (by decide) rfl,
    hstr "CustomName" (by decide) (by decide)⟩

end Envconfig
